import Mathlib

/-!
Shallow embedding of `src/data_pipeline.py` (class `CryptoDataPipeline`).

The feature engine `process_data` works on a pandas DataFrame; we model a
DataFrame as a `List RawRow`.  Numeric cells of derived columns follow IEEE
floating point insofar as finiteness is concerned: we model them by `EF`,
an exact tri-state numeric value (finite rational, positive or negative
infinity, NaN).  Rounding of finite values is not modelled (finite
arithmetic is exact rational arithmetic); the claims under study concern
null/non-finite structure and exact algebraic form, not rounding.

The pandas `rolling(...).std()` call returns a square root, which is not
rational; the model tracks the *square* of that column
(`volatility_30d_sq`).  Since `Real.sqrt` is injective on nonnegative
reals and maps NaN-like cases along, every claim about `volatility_30d`
(nullity, and equality with a sample standard deviation) is stated
faithfully through its square (equality with the sample variance).
-/

namespace Crypto

/-- Extended numeric value: the value of one float cell.
`fin q` is a finite value, `inf`/`neginf` the two infinities, `nan` NaN
(pandas uses NaN both for missing data and for 0/0). -/
inductive EF where
  | fin : ℚ → EF
  | inf : EF
  | neginf : EF
  | nan : EF
deriving DecidableEq

instance : Inhabited EF := ⟨.nan⟩

/-- IEEE negation. -/
def EF.neg : EF → EF
  | .fin a => .fin (-a)
  | .inf => .neginf
  | .neginf => .inf
  | .nan => .nan

/-- IEEE addition (inf + (-inf) = NaN, NaN absorbs). -/
def EF.add : EF → EF → EF
  | .fin a, .fin b => .fin (a + b)
  | .nan, _ => .nan
  | _, .nan => .nan
  | .inf, .neginf => .nan
  | .neginf, .inf => .nan
  | .inf, _ => .inf
  | _, .inf => .inf
  | .neginf, _ => .neginf
  | _, .neginf => .neginf

/-- IEEE subtraction. -/
def EF.sub (a b : EF) : EF := a.add b.neg

/-- IEEE multiplication (inf * 0 = NaN, signs of infinities respected). -/
def EF.mul : EF → EF → EF
  | .fin a, .fin b => .fin (a * b)
  | .nan, _ => .nan
  | _, .nan => .nan
  | .inf, .inf => .inf
  | .inf, .neginf => .neginf
  | .neginf, .inf => .neginf
  | .neginf, .neginf => .inf
  | .inf, .fin b => if 0 < b then .inf else if b < 0 then .neginf else .nan
  | .fin a, .inf => if 0 < a then .inf else if a < 0 then .neginf else .nan
  | .neginf, .fin b => if 0 < b then .neginf else if b < 0 then .inf else .nan
  | .fin a, .neginf => if 0 < a then .neginf else if a < 0 then .inf else .nan

/-- IEEE division as produced by numpy float division (the only divisions the
pipeline performs have at least one operand finite; `x/0` gives a signed
infinity for `x ≠ 0` and NaN for `0/0`, as numpy does with float zeros). -/
def EF.div : EF → EF → EF
  | .fin a, .fin b =>
      if b ≠ 0 then .fin (a / b)
      else if 0 < a then .inf else if a < 0 then .neginf else .nan
  | .nan, _ => .nan
  | _, .nan => .nan
  | .inf, .inf => .nan
  | .inf, .neginf => .nan
  | .neginf, .inf => .nan
  | .neginf, .neginf => .nan
  | .inf, .fin b => if b < 0 then .neginf else .inf
  | .neginf, .fin b => if b < 0 then .inf else .neginf
  | .fin _, .inf => .fin 0
  | .fin _, .neginf => .fin 0

/-- Is this cell NaN (pandas' null for float columns)? -/
def EF.isNan : EF → Bool
  | .nan => true
  | _ => false

/-- Is this cell a finite number? -/
def EF.isFinite : EF → Bool
  | .fin _ => true
  | _ => false

/-- Sum of a list of cells, as numpy computes it (left fold from 0). -/
def EF.sumL (xs : List EF) : EF := xs.foldl EF.add (.fin 0)

/-- One row of the combined normalized table fed to `process_data`:
columns `date, coin, price, volume, market_cap`.  `date` is the timestamp
(millisecond precision, modelled as an integer); `coin` the asset id. -/
structure RawRow where
  date : Int
  coin : String
  price : ℚ
  volume : ℚ
  market_cap : ℚ
deriving DecidableEq, Inhabited

/-- One row of `process_data`'s output: the carried columns plus the five
derived columns (volatility tracked by its square, see the file comment). -/
structure FeatureRow where
  date : Int
  coin : String
  price : ℚ
  volume : ℚ
  market_cap : ℚ
  daily_return : EF
  ma_7 : ℚ
  ma_30 : ℚ
  volatility_30d_sq : EF
  cumulative_return : EF
deriving DecidableEq, Inhabited

/-- The dedup key of `df.drop_duplicates(subset=['date', 'coin'])`. -/
def key (r : RawRow) : Int × String := (r.date, r.coin)

/-- Worker for `drop_duplicates` with pandas' default `keep='first'`:
a row is kept iff its key was not seen earlier in the list. -/
def dedupAux (seen : List (Int × String)) : List RawRow → List RawRow
  | [] => []
  | r :: rest =>
      if key r ∈ seen then dedupAux seen rest
      else r :: dedupAux (key r :: seen) rest

/-- `df.drop_duplicates(subset=['date', 'coin'])` (keep first occurrence). -/
def dropDuplicates (l : List RawRow) : List RawRow := dedupAux [] l

/-- The sort relation of `df.sort_values('date')`. -/
def byDate (a b : RawRow) : Prop := a.date ≤ b.date

instance : DecidableRel byDate := fun a b => inferInstanceAs (Decidable (a.date ≤ b.date))

instance : IsTotal RawRow byDate := ⟨fun a b => Int.le_total a.date b.date⟩

instance : IsTrans RawRow byDate := ⟨fun _ _ _ => Int.le_trans⟩

/-- Lines 115-119 of the source: drop duplicates, then sort by date.
`sort_values` is modelled by a stable sort (insertion sort); the spec allows
any stable order on date ties, and no derived value depends on the order of
equal-date rows of different coins. -/
def sortedDedup (df : List RawRow) : List RawRow :=
  List.insertionSort byDate (dropDuplicates df)

/-- The price column of one coin's group, in the table's (global sorted)
order: what `df.groupby('coin')['price']` hands to each per-group lambda. -/
def groupPrices (s : List RawRow) (c : String) : List ℚ :=
  (s.filter (fun r => decide (r.coin = c))).map (fun r => r.price)

/-- The rank of row `i` inside its coin's group: how many earlier rows of
the table belong to coin `c`.  Groupby-transform aligns the group series
back to the table by this rank. -/
def rankIn (s : List RawRow) (i : ℕ) (c : String) : ℕ :=
  ((s.take i).filter (fun r => decide (r.coin = c))).length

/-- The trailing window of size `k` ending at position `m`:
elements `max 0 (m+1-k) .. m` of `xs` (pandas `rolling(window=k)`). -/
def window (k : ℕ) (xs : List α) (m : ℕ) : List α :=
  (xs.take (m + 1)).drop (m + 1 - k)

/-- Mean of a list of rationals (division by the Nat-cast length;
callers only use it on nonempty lists). -/
def qmean (xs : List ℚ) : ℚ := xs.sum / (xs.length : ℚ)

/-- Worker for `pct_change`: each element against its predecessor. -/
def returnsAux (prev : ℚ) : List ℚ → List EF
  | [] => []
  | p :: rest => (EF.sub (EF.div (.fin p) (.fin prev)) (.fin 1)) :: returnsAux p rest

/-- `groupby('coin')['price'].pct_change()` restricted to one group's price
series: NaN at the group's first position, then `p[m]/p[m-1] - 1` in float
arithmetic (source line 122). -/
def returnsOf : List ℚ → List EF
  | [] => []
  | p :: rest => EF.nan :: returnsAux p rest

/-- `x.rolling(window=k, min_periods=1).mean()` on one group's price series
(source lines 125-130).  Prices are finite, so the mean is a rational. -/
def maOf (k : ℕ) (ps : List ℚ) : List ℚ :=
  (List.range ps.length).map (fun m => qmean (window k ps m))

/-- Sample variance (ddof = 1) of a list of cells, in float arithmetic.
For a single observation the denominator is zero and the result is NaN,
exactly as `std(ddof=1)` of one observation is NaN. -/
def sampleVarEF (obs : List EF) : EF :=
  let n : ℚ := (obs.length : ℚ)
  let mu := EF.div (EF.sumL obs) (.fin n)
  EF.div (EF.sumL (obs.map (fun x => EF.mul (EF.sub x mu) (EF.sub x mu)))) (.fin (n - 1))

/-- `x.rolling(window=30, min_periods=1).std()` on one group's return series,
squared (source lines 133-135).  Rolling aggregations compute over the
non-NaN observations of the window; with fewer than `min_periods = 1` of
them the cell is NaN, and the `ddof = 1` variance of one observation is
NaN as well. -/
def volOf (ps : List ℚ) : List EF :=
  let rs := returnsOf ps
  (List.range rs.length).map (fun m =>
    let obs := (window 30 rs m).filter (fun x => !x.isNan)
    if obs.length < 1 then EF.nan else sampleVarEF obs)

/-- `Series.cumprod()` with its default `skipna=True`: a NaN factor leaves a
NaN cell but is skipped by the running product. -/
def cumprodSkipNa (acc : EF) : List EF → List EF
  | [] => []
  | x :: rest =>
      if x.isNan then EF.nan :: cumprodSkipNa acc rest
      else EF.mul acc x :: cumprodSkipNa (EF.mul acc x) rest

/-- `(1 + x).cumprod()` on one group's return series (source lines 138-140). -/
def cumretOf (ps : List ℚ) : List EF :=
  cumprodSkipNa (.fin 1) ((returnsOf ps).map (fun r => EF.add (.fin 1) r))

/-- `map` with the element's position, starting from `i`. -/
def mapIdxFrom (f : ℕ → α → β) : ℕ → List α → List β
  | _, [] => []
  | i, a :: t => f i a :: mapIdxFrom f (i + 1) t

/-- The output row built from a carried row `r` sitting at rank `m` of the
coin group whose price series is `ps`: each derived column is the group
series read at the rank. -/
def featureOfGroup (ps : List ℚ) (m : ℕ) (r : RawRow) : FeatureRow :=
  { date := r.date, coin := r.coin, price := r.price, volume := r.volume,
    market_cap := r.market_cap,
    daily_return := (returnsOf ps).getD m .nan,
    ma_7 := (maOf 7 ps).getD m 0,
    ma_30 := (maOf 30 ps).getD m 0,
    volatility_30d_sq := (volOf ps).getD m .nan,
    cumulative_return := (cumretOf ps).getD m .nan }

/-- The output row at global position `i` of the sorted deduplicated table
`s`: groupby-transform gives it the value of its group's series at its
rank within the group. -/
def mkFeatureRow (s : List RawRow) (i : ℕ) (r : RawRow) : FeatureRow :=
  featureOfGroup (groupPrices s r.coin) (rankIn s i r.coin) r

/-- `process_data` (source lines 105-142): drop duplicate `(date, coin)`
keys keeping the first occurrence, sort by date, and attach the five
derived columns computed per coin group, aligned back to the table order. -/
def process_data (df : List RawRow) : List FeatureRow :=
  mapIdxFrom (mkFeatureRow (sortedDedup df)) 0 (sortedDedup df)

/-- `run_pipeline` (source lines 176-217): fetch each coin (a failed fetch
yields `none` and the coin is skipped), give up with `none` when nothing
was fetched, otherwise concatenate and process.  The fetch itself is
modelled as an oracle from coin id to optional rows. -/
def run_pipeline (coins : List String) (fetches : String → Option (List RawRow)) :
    Option (List FeatureRow) :=
  let all_data := coins.filterMap fetches
  if all_data.isEmpty then none
  else some (process_data all_data.flatten)

/-- The carried (non-derived) columns of an output row. -/
def baseOf (r : FeatureRow) : RawRow :=
  { date := r.date, coin := r.coin, price := r.price, volume := r.volume,
    market_cap := r.market_cap }

/-- The dedup key of an output row. -/
def fkey (r : FeatureRow) : Int × String := (r.date, r.coin)

/-- The output rows of one coin, in output order: one asset group as a
downstream consumer sees it. -/
def outputGroup (df : List RawRow) (c : String) : List FeatureRow :=
  (process_data df).filter (fun r => decide (r.coin = c))

/-- Spec-side sample variance (N-1 denominator) of a list of rationals:
the square of the sample standard deviation the spec describes. -/
def sampleVarQ (qs : List ℚ) : ℚ :=
  (qs.map (fun x => (x - qmean qs) * (x - qmean qs))).sum / ((qs.length : ℚ) - 1)

/-- The growth factors `1 + daily_return` of a return series. -/
def growthFactors (rs : List EF) : List EF := rs.map (fun r => EF.add (.fin 1) r)

/-- Product of the non-NaN entries of a list of factors (float arithmetic). -/
def prodNonNan (fs : List EF) : EF := (fs.filter (fun x => !x.isNan)).foldl EF.mul (.fin 1)

/-- Example input of the spec's cumulative-return test: one asset with
prices 100, 110, 121. -/
def dfComp : List RawRow :=
  [⟨0, "a", 100, 0, 0⟩, ⟨1, "a", 110, 0, 0⟩, ⟨2, "a", 121, 0, 0⟩]

/-- Example input of the spec's zero-price test: one asset with prices 0, 5. -/
def dfZeroFive : List RawRow :=
  [⟨0, "a", 0, 0, 0⟩, ⟨1, "a", 5, 0, 0⟩]

/-- Example input: one asset whose price is 0 on two consecutive days. -/
def dfZeros : List RawRow :=
  [⟨0, "a", 0, 0, 0⟩, ⟨1, "a", 0, 0, 0⟩]

/-- Example input of the spec's moving-average test: one asset with prices
10, 20, 30, 40, 50. -/
def dfFive : List RawRow :=
  [⟨0, "a", 10, 0, 0⟩, ⟨1, "a", 20, 0, 0⟩, ⟨2, "a", 30, 0, 0⟩,
   ⟨3, "a", 40, 0, 0⟩, ⟨4, "a", 50, 0, 0⟩]

/-- Example input: one asset with a single row. -/
def dfOne : List RawRow := [⟨0, "a", 42, 0, 0⟩]

/-- Example input with two assets and a duplicated key: the two `"a"` rows
of date 1 have different prices, exercising the dedup rule. -/
def dfDup : List RawRow :=
  [⟨1, "a", 7, 1, 1⟩, ⟨0, "b", 3, 0, 0⟩, ⟨1, "a", 9, 2, 2⟩, ⟨2, "b", 4, 0, 0⟩]

/-! ### Infrastructure: `mapIdxFrom` -/

theorem mapIdxFrom_length (f : ℕ → α → β) : ∀ (i : ℕ) (l : List α),
    (mapIdxFrom f i l).length = l.length
  | _, [] => rfl
  | i, _ :: t => by simp [mapIdxFrom, mapIdxFrom_length f (i + 1) t]

theorem mapIdxFrom_append (f : ℕ → α → β) : ∀ (i : ℕ) (l₁ l₂ : List α),
    mapIdxFrom f i (l₁ ++ l₂) = mapIdxFrom f i l₁ ++ mapIdxFrom f (i + l₁.length) l₂
  | i, [], l₂ => rfl
  | i, a :: t, l₂ => by
    have he : i + 1 + t.length = i + (t.length + 1) := by omega
    simp [mapIdxFrom, mapIdxFrom_append f (i + 1) t l₂, he]

theorem mapIdxFrom_congr {f g : ℕ → α → β} : ∀ (i : ℕ) (l : List α),
    (∀ (j : ℕ) (hj : j < l.length), f (i + j) (l.get ⟨j, hj⟩) = g (i + j) (l.get ⟨j, hj⟩)) →
    mapIdxFrom f i l = mapIdxFrom g i l
  | _, [], _ => rfl
  | i, a :: t, h => by
    simp only [mapIdxFrom]
    refine congrArg₂ _ ?_ (mapIdxFrom_congr (i + 1) t fun j hj => ?_)
    · simpa using h 0 (by simp)
    · have h2 := h (j + 1) (Nat.succ_lt_succ hj)
      simp only [List.get_cons_succ] at h2
      have he : i + (j + 1) = i + 1 + j := by omega
      rwa [he] at h2

theorem mapIdxFrom_map (g : β → γ) (f : ℕ → α → β) : ∀ (i : ℕ) (l : List α),
    (mapIdxFrom f i l).map g = mapIdxFrom (fun j a => g (f j a)) i l
  | _, [] => rfl
  | i, a :: t => by simp [mapIdxFrom, mapIdxFrom_map g f (i + 1) t]

theorem mapIdxFrom_get (f : ℕ → α → β) : ∀ (i : ℕ) (l : List α) (j : ℕ)
    (hj : j < l.length) (hj2 : j < (mapIdxFrom f i l).length),
    (mapIdxFrom f i l).get ⟨j, hj2⟩ = f (i + j) (l.get ⟨j, hj⟩)
  | _, [], j, hj, _ => absurd hj (by simp)
  | i, a :: t, 0, _, _ => by simp [mapIdxFrom]
  | i, a :: t, j + 1, hj, hj2 => by
    simp only [mapIdxFrom, List.get_cons_succ]
    rw [mapIdxFrom_get f (i + 1) t j (by simpa using Nat.lt_of_succ_lt_succ hj)]
    congr 1
    omega

theorem mapIdxFrom_getD (f : ℕ → α → β) (i : ℕ) (l : List α) (j : ℕ)
    (hj : j < l.length) (d : β) (da : α) :
    (mapIdxFrom f i l).getD j d = f (i + j) (l.getD j da) := by
  have hj2 : j < (mapIdxFrom f i l).length := by rw [mapIdxFrom_length]; exact hj
  simp only [List.getD_eq_getElem _ _ hj2, List.getD_eq_getElem _ _ hj, ← List.get_eq_getElem]
  exact mapIdxFrom_get f i l j hj hj2

theorem mapIdxFrom_const (h : α → β) : ∀ (i : ℕ) (l : List α),
    mapIdxFrom (fun _ a => h a) i l = l.map h
  | _, [] => rfl
  | i, a :: t => by simp [mapIdxFrom, mapIdxFrom_const h (i + 1) t]

theorem mapIdxFrom_getD_self (d : β) (l : List α) (L : List β)
    (hL : L.length = l.length) :
    mapIdxFrom (fun m _ => L.getD m d) 0 l = L := by
  apply List.ext_get
  · rw [mapIdxFrom_length]; omega
  · intro n h1 h2
    rw [mapIdxFrom_get _ 0 l n (by rw [← hL]; exact h2)]
    simp only [Nat.zero_add, List.getD_eq_getElem _ _ h2, List.get_eq_getElem]

/-! ### Infrastructure: lengths of the derived series -/

theorem returnsAux_length (p : ℚ) : ∀ l : List ℚ, (returnsAux p l).length = l.length
  | [] => rfl
  | q :: t => by simp [returnsAux, returnsAux_length q t]

theorem returnsOf_length : ∀ ps : List ℚ, (returnsOf ps).length = ps.length
  | [] => rfl
  | p :: t => by simp [returnsOf, returnsAux_length]

theorem maOf_length (k : ℕ) (ps : List ℚ) : (maOf k ps).length = ps.length := by
  simp [maOf]

theorem volOf_length (ps : List ℚ) : (volOf ps).length = ps.length := by
  simp [volOf, returnsOf_length]

theorem cumprodSkipNa_length (acc : EF) : ∀ l : List EF,
    (cumprodSkipNa acc l).length = l.length
  | [] => rfl
  | x :: t => by
    by_cases h : x.isNan <;>
      simp [cumprodSkipNa, h, cumprodSkipNa_length]

theorem cumretOf_length (ps : List ℚ) : (cumretOf ps).length = ps.length := by
  simp [cumretOf, cumprodSkipNa_length, returnsOf_length]

/-! ### Infrastructure: reading and extending the derived series -/

theorem window_concat (k : ℕ) (xs : List α) (q : α) (m : ℕ) (hm : m < xs.length) :
    window k (xs ++ [q]) m = window k xs m := by
  unfold window
  rw [List.take_append_of_le_length (by omega)]

theorem returnsAux_getD (d : EF) : ∀ (prev : ℚ) (l : List ℚ) (m : ℕ), m < l.length →
    (returnsAux prev l).getD m d =
      EF.sub (EF.div (.fin (l.getD m 0)) (.fin ((prev :: l).getD m 0))) (.fin 1)
  | _, [], m, hm => absurd hm (by simp)
  | prev, p :: t, 0, _ => by simp [returnsAux]
  | prev, p :: t, m + 1, hm => by
    simp only [returnsAux, List.getD_cons_succ]
    exact returnsAux_getD d p t m (by simpa using Nat.lt_of_succ_lt_succ hm)

theorem returnsOf_getD_zero (ps : List ℚ) (h : 0 < ps.length) (d : EF) :
    (returnsOf ps).getD 0 d = .nan := by
  cases ps with
  | nil => simp at h
  | cons p t => simp [returnsOf]

theorem returnsOf_getD_succ (ps : List ℚ) (m : ℕ) (h : m + 1 < ps.length) (d : EF) :
    (returnsOf ps).getD (m + 1) d =
      EF.sub (EF.div (.fin (ps.getD (m + 1) 0)) (.fin (ps.getD m 0))) (.fin 1) := by
  cases ps with
  | nil => simp at h
  | cons p t =>
    simp only [returnsOf, List.getD_cons_succ]
    exact returnsAux_getD d p t m (by simpa using h)

theorem returnsAux_concat (q : ℚ) : ∀ (prev : ℚ) (l : List ℚ), ∃ x,
    returnsAux prev (l ++ [q]) = returnsAux prev l ++ [x]
  | prev, [] => ⟨_, rfl⟩
  | prev, p :: t => by
    obtain ⟨x, hx⟩ := returnsAux_concat q p t
    exact ⟨x, by simp [returnsAux, hx]⟩

theorem returnsOf_concat (ps : List ℚ) (q : ℚ) : ∃ x,
    returnsOf (ps ++ [q]) = returnsOf ps ++ [x] := by
  cases ps with
  | nil => exact ⟨.nan, rfl⟩
  | cons p t =>
    obtain ⟨x, hx⟩ := returnsAux_concat q p t
    exact ⟨x, by simp [returnsOf, hx]⟩

theorem maOf_concat (k : ℕ) (ps : List ℚ) (q : ℚ) : ∃ x,
    maOf k (ps ++ [q]) = maOf k ps ++ [x] := by
  refine ⟨qmean (window k (ps ++ [q]) ps.length), ?_⟩
  unfold maOf
  simp only [List.length_append, List.length_cons, List.length_nil, List.range_succ,
    List.map_append, List.map_cons, List.map_nil]
  congr 1
  apply List.map_congr_left
  intro m hm
  rw [window_concat k ps q m (List.mem_range.1 hm)]

theorem volOf_concat (ps : List ℚ) (q : ℚ) : ∃ x, volOf (ps ++ [q]) = volOf ps ++ [x] := by
  obtain ⟨r, hr⟩ := returnsOf_concat ps q
  refine ⟨(fun m =>
    let obs := (window 30 (returnsOf ps ++ [r]) m).filter (fun x => !x.isNan)
    if obs.length < 1 then EF.nan else sampleVarEF obs) ps.length, ?_⟩
  unfold volOf
  rw [hr]
  simp only [List.length_append, returnsOf_length, List.length_cons, List.length_nil,
    List.range_succ, List.map_append, List.map_cons, List.map_nil]
  congr 1
  apply List.map_congr_left
  intro m hm
  rw [window_concat 30 (returnsOf ps) r m
    (by rw [returnsOf_length]; exact List.mem_range.1 hm)]

theorem cumprodSkipNa_concat (x : EF) : ∀ (acc : EF) (l : List EF), ∃ y,
    cumprodSkipNa acc (l ++ [x]) = cumprodSkipNa acc l ++ [y]
  | acc, [] => by
    refine ⟨if x.isNan then .nan else EF.mul acc x, ?_⟩
    by_cases h : x.isNan <;> simp [cumprodSkipNa, h]
  | acc, z :: t => by
    by_cases h : z.isNan
    · obtain ⟨y, hy⟩ := cumprodSkipNa_concat x acc t
      exact ⟨y, by simp [cumprodSkipNa, h, hy]⟩
    · obtain ⟨y, hy⟩ := cumprodSkipNa_concat x (EF.mul acc z) t
      exact ⟨y, by simp [cumprodSkipNa, h, hy]⟩

theorem cumretOf_concat (ps : List ℚ) (q : ℚ) : ∃ x,
    cumretOf (ps ++ [q]) = cumretOf ps ++ [x] := by
  obtain ⟨r, hr⟩ := returnsOf_concat ps q
  unfold cumretOf
  rw [hr, List.map_append]
  simpa using cumprodSkipNa_concat (EF.add (.fin 1) r) (.fin 1)
    ((returnsOf ps).map (fun v => EF.add (.fin 1) v))

theorem featureOfGroup_concat (ps : List ℚ) (q : ℚ) (m : ℕ) (hm : m < ps.length)
    (r : RawRow) : featureOfGroup (ps ++ [q]) m r = featureOfGroup ps m r := by
  obtain ⟨x1, h1⟩ := returnsOf_concat ps q
  obtain ⟨x2, h2⟩ := maOf_concat 7 ps q
  obtain ⟨x3, h3⟩ := maOf_concat 30 ps q
  obtain ⟨x4, h4⟩ := volOf_concat ps q
  obtain ⟨x5, h5⟩ := cumretOf_concat ps q
  unfold featureOfGroup
  rw [h1, h2, h3, h4, h5,
    List.getD_append _ _ _ _ (by rw [returnsOf_length]; exact hm),
    List.getD_append _ _ _ _ (by rw [maOf_length]; exact hm),
    List.getD_append _ _ _ _ (by rw [maOf_length]; exact hm),
    List.getD_append _ _ _ _ (by rw [volOf_length]; exact hm),
    List.getD_append _ _ _ _ (by rw [cumretOf_length]; exact hm)]

/-! ### Infrastructure: groups and ranks -/

theorem groupPrices_length (s : List RawRow) (c : String) :
    (groupPrices s c).length = (s.filter (fun r => decide (r.coin = c))).length := by
  simp [groupPrices]

theorem groupPrices_concat (s : List RawRow) (a : RawRow) (c : String) :
    groupPrices (s ++ [a]) c =
      if a.coin = c then groupPrices s c ++ [a.price] else groupPrices s c := by
  by_cases h : a.coin = c <;> simp [groupPrices, List.filter_append, h]

theorem rankIn_concat (s : List RawRow) (a : RawRow) (i : ℕ) (c : String)
    (hi : i ≤ s.length) : rankIn (s ++ [a]) i c = rankIn s i c := by
  unfold rankIn
  rw [List.take_append_of_le_length hi]

theorem rankIn_full (s : List RawRow) (a : RawRow) (c : String) :
    rankIn (s ++ [a]) s.length c = (groupPrices s c).length := by
  unfold rankIn
  rw [List.take_append_of_le_length (le_refl _), List.take_length, groupPrices_length]

theorem rankIn_lt (s : List RawRow) (i : ℕ) (c : String) (hi : i < s.length)
    (hc : (s.get ⟨i, hi⟩).coin = c) : rankIn s i c < (groupPrices s c).length := by
  rw [groupPrices_length]
  conv_rhs => rw [← List.take_append_drop i s]
  rw [List.filter_append, List.length_append]
  have hc2 : s[i].coin = c := by simpa [List.get_eq_getElem] using hc
  have hd : s.drop i = s.get ⟨i, hi⟩ :: s.drop (i + 1) := by
    rw [List.drop_eq_getElem_cons hi]
    simp [List.get_eq_getElem]
  rw [hd, List.filter_cons_of_pos (by simp [List.get_eq_getElem, hc2])]
  simp only [rankIn, List.length_cons]
  omega

/-! ### The group correspondence: one coin's output rows are its group
series read off at consecutive ranks -/

theorem process_data_filter (s : List RawRow) (c : String) :
    (mapIdxFrom (mkFeatureRow s) 0 s).filter (fun fr => decide (fr.coin = c)) =
      mapIdxFrom (featureOfGroup (groupPrices s c)) 0
        (s.filter (fun r => decide (r.coin = c))) := by
  induction s using List.reverseRecOn with
  | nil => rfl
  | append_singleton t a ih =>
    have hpref : mapIdxFrom (mkFeatureRow (t ++ [a])) 0 t =
        mapIdxFrom (mkFeatureRow t) 0 t := by
      apply mapIdxFrom_congr
      intro j hj
      unfold mkFeatureRow
      rw [rankIn_concat t a (0 + j) (t.get ⟨j, hj⟩).coin (by omega)]
      rw [groupPrices_concat]
      by_cases hac : a.coin = (t.get ⟨j, hj⟩).coin
      · rw [if_pos hac]
        refine featureOfGroup_concat _ _ _ ?_ _
        have hlt := rankIn_lt t j (t.get ⟨j, hj⟩).coin hj rfl
        simpa [Nat.zero_add] using hlt
      · rw [if_neg hac]
    rw [mapIdxFrom_append, hpref, List.filter_append, ih]
    by_cases hca : a.coin = c
    · have hfa : (t ++ [a]).filter (fun r => decide (r.coin = c)) =
          t.filter (fun r => decide (r.coin = c)) ++ [a] := by
        simp [List.filter_append, hca]
      have hgp : groupPrices (t ++ [a]) c = groupPrices t c ++ [a.price] := by
        rw [groupPrices_concat, if_pos hca]
      rw [hfa, hgp, mapIdxFrom_append]
      have hpref2 : mapIdxFrom (featureOfGroup (groupPrices t c ++ [a.price])) 0
          (t.filter (fun r => decide (r.coin = c))) =
          mapIdxFrom (featureOfGroup (groupPrices t c)) 0
          (t.filter (fun r => decide (r.coin = c))) := by
        apply mapIdxFrom_congr
        intro j hj
        refine featureOfGroup_concat _ _ _ ?_ _
        rw [groupPrices_length]
        simpa using hj
      rw [hpref2]
      congr 1
      show (mapIdxFrom (mkFeatureRow (t ++ [a])) (0 + t.length) [a]).filter
          (fun fr => decide (fr.coin = c)) = _
      have hone : mapIdxFrom (mkFeatureRow (t ++ [a])) (0 + t.length) [a] =
          [mkFeatureRow (t ++ [a]) (0 + t.length) a] := rfl
      rw [hone]
      have hcoin : ∀ n : ℕ, (mkFeatureRow (t ++ [a]) n a).coin = a.coin := fun _ => rfl
      rw [List.filter_cons_of_pos (by simp [hcoin, hca])]
      have hnew : mkFeatureRow (t ++ [a]) (0 + t.length) a =
          featureOfGroup (groupPrices t c ++ [a.price])
            (0 + (t.filter (fun r => decide (r.coin = c))).length) a := by
        unfold mkFeatureRow
        simp only [Nat.zero_add]
        rw [hca, hgp, rankIn_full, groupPrices_length]
      rw [hnew]
      rfl
    · have hfa : (t ++ [a]).filter (fun r => decide (r.coin = c)) =
          t.filter (fun r => decide (r.coin = c)) := by
        simp [List.filter_append, hca]
      have hgp : groupPrices (t ++ [a]) c = groupPrices t c := by
        rw [groupPrices_concat, if_neg hca]
      have hnew : (mapIdxFrom (mkFeatureRow (t ++ [a])) (0 + t.length) [a]).filter
          (fun fr => decide (fr.coin = c)) = [] := by
        have hcoin : ∀ n : ℕ, (mkFeatureRow (t ++ [a]) n a).coin = a.coin := fun _ => rfl
        have hone : mapIdxFrom (mkFeatureRow (t ++ [a])) (0 + t.length) [a] =
            [mkFeatureRow (t ++ [a]) (0 + t.length) a] := rfl
        rw [hone, List.filter_cons_of_neg (by simp [hcoin, hca])]
        rfl
      rw [hfa, hgp, hnew, List.append_nil]

theorem outputGroup_eq (df : List RawRow) (c : String) :
    outputGroup df c =
      mapIdxFrom (featureOfGroup (groupPrices (sortedDedup df) c)) 0
        ((sortedDedup df).filter (fun r => decide (r.coin = c))) :=
  process_data_filter (sortedDedup df) c

theorem outputGroup_length (df : List RawRow) (c : String) :
    (outputGroup df c).length = (groupPrices (sortedDedup df) c).length := by
  rw [outputGroup_eq, mapIdxFrom_length, groupPrices_length]

theorem outputGroup_prices (df : List RawRow) (c : String) :
    (outputGroup df c).map (fun r => r.price) = groupPrices (sortedDedup df) c := by
  rw [outputGroup_eq, mapIdxFrom_map]
  have h1 : (fun (j : ℕ) (r : RawRow) =>
      (featureOfGroup (groupPrices (sortedDedup df) c) j r).price) =
      fun (_ : ℕ) (r : RawRow) => r.price := rfl
  rw [h1, mapIdxFrom_const]
  rfl

theorem outputGroup_daily_return (df : List RawRow) (c : String) :
    (outputGroup df c).map (fun r => r.daily_return) =
      returnsOf (groupPrices (sortedDedup df) c) := by
  rw [outputGroup_eq, mapIdxFrom_map]
  exact mapIdxFrom_getD_self _ _ _ (by rw [returnsOf_length, groupPrices_length])

theorem outputGroup_ma7 (df : List RawRow) (c : String) :
    (outputGroup df c).map (fun r => r.ma_7) =
      maOf 7 (groupPrices (sortedDedup df) c) := by
  rw [outputGroup_eq, mapIdxFrom_map]
  exact mapIdxFrom_getD_self _ _ _ (by rw [maOf_length, groupPrices_length])

theorem outputGroup_ma30 (df : List RawRow) (c : String) :
    (outputGroup df c).map (fun r => r.ma_30) =
      maOf 30 (groupPrices (sortedDedup df) c) := by
  rw [outputGroup_eq, mapIdxFrom_map]
  exact mapIdxFrom_getD_self _ _ _ (by rw [maOf_length, groupPrices_length])

theorem outputGroup_vol (df : List RawRow) (c : String) :
    (outputGroup df c).map (fun r => r.volatility_30d_sq) =
      volOf (groupPrices (sortedDedup df) c) := by
  rw [outputGroup_eq, mapIdxFrom_map]
  exact mapIdxFrom_getD_self _ _ _ (by rw [volOf_length, groupPrices_length])

theorem outputGroup_cumret (df : List RawRow) (c : String) :
    (outputGroup df c).map (fun r => r.cumulative_return) =
      cumretOf (groupPrices (sortedDedup df) c) := by
  rw [outputGroup_eq, mapIdxFrom_map]
  exact mapIdxFrom_getD_self _ _ _ (by rw [cumretOf_length, groupPrices_length])

theorem col_getD (l : List FeatureRow) (m : ℕ) (hm : m < l.length)
    (f : FeatureRow → γ) (d : γ) :
    f (l.getD m default) = (l.map f).getD m d := by
  rw [List.getD_eq_getElem _ _ hm, List.getD_eq_getElem _ _ (by simpa using hm),
    List.getElem_map]

/-! ### Arithmetic facts about `EF` and the series algorithms -/

theorem EF.isNan_add_one (r : EF) : (EF.add (.fin 1) r).isNan = r.isNan := by
  cases r <;> rfl

theorem EF.isFinite_add_one (r : EF) :
    (EF.add (.fin 1) r).isFinite = r.isFinite := by
  cases r <;> rfl

theorem EF.mul_not_finite (a b : EF) (hb : b.isFinite = false) :
    (EF.mul a b).isFinite = false := by
  cases b with
  | fin q => simp [EF.isFinite] at hb
  | inf => cases a with
    | fin q => by_cases h1 : 0 < q <;> by_cases h2 : q < 0 <;> simp [EF.mul, EF.isFinite, h1, h2]
    | inf => rfl
    | neginf => rfl
    | nan => rfl
  | neginf => cases a with
    | fin q => by_cases h1 : 0 < q <;> by_cases h2 : q < 0 <;> simp [EF.mul, EF.isFinite, h1, h2]
    | inf => rfl
    | neginf => rfl
    | nan => rfl
  | nan => cases a <;> rfl

theorem EF.return_formula_nan_iff (a b : ℚ) :
    (EF.sub (EF.div (.fin a) (.fin b)) (.fin 1)).isNan = true ↔ b = 0 ∧ a = 0 := by
  by_cases hb : b = 0
  · subst hb
    rcases lt_trichotomy a 0 with h | h | h
    · simp [EF.div, EF.sub, EF.add, EF.neg, EF.isNan, not_lt.2 h.le, h, h.ne]
    · subst h
      simp [EF.div, EF.sub, EF.add, EF.neg, EF.isNan]
    · simp [EF.div, EF.sub, EF.add, EF.neg, EF.isNan, h, h.ne.symm]
  · simp [EF.div, EF.sub, EF.add, EF.neg, EF.isNan, hb]

theorem EF.return_formula_zero_denom (a : ℚ) :
    (EF.sub (EF.div (.fin a) (.fin 0)) (.fin 1)).isFinite = false := by
  rcases lt_trichotomy a 0 with h | h | h
  · simp [EF.div, EF.sub, EF.add, EF.neg, EF.isFinite, not_lt.2 h.le, h]
  · subst h
    simp [EF.div, EF.sub, EF.add, EF.neg, EF.isFinite]
  · simp [EF.div, EF.sub, EF.add, EF.neg, EF.isFinite, h]

theorem EF.return_formula_fin (a b : ℚ) (hb : b ≠ 0) :
    EF.sub (EF.div (.fin a) (.fin b)) (.fin 1) = .fin (a / b - 1) := by
  simp [EF.div, EF.sub, EF.add, EF.neg, hb, sub_eq_add_neg]

theorem EF.foldl_add_map_fin (l : List ℚ) : ∀ a : ℚ,
    List.foldl EF.add (.fin a) (l.map .fin) = .fin (List.foldl (· + ·) a l) := by
  induction l with
  | nil => intro a; rfl
  | cons q t ih => intro a; simp only [List.map_cons, List.foldl_cons]; exact ih (a + q)

theorem EF.sumL_map_fin (l : List ℚ) : EF.sumL (l.map .fin) = .fin l.sum := by
  rw [EF.sumL, EF.foldl_add_map_fin, List.sum_eq_foldl]

theorem sampleVarEF_singleton (x : EF) : sampleVarEF [x] = .nan := by
  cases x <;>
    norm_num [sampleVarEF, EF.sumL, List.foldl_cons, List.foldl_nil, EF.div, EF.sub,
      EF.add, EF.neg, EF.mul, EF.isNan]

theorem sampleVarEF_map_fin (qs : List ℚ) (h2 : 2 ≤ qs.length) :
    sampleVarEF (qs.map .fin) = .fin (sampleVarQ qs) := by
  have hlen : ((qs.map EF.fin).length : ℚ) = (qs.length : ℚ) := by simp
  have hne : ((qs.length : ℚ)) ≠ 0 := by
    have : (2 : ℚ) ≤ (qs.length : ℚ) := by exact_mod_cast h2
    linarith
  have hne1 : ((qs.length : ℚ)) - 1 ≠ 0 := by
    have : (2 : ℚ) ≤ (qs.length : ℚ) := by exact_mod_cast h2
    linarith
  simp only [sampleVarEF, List.length_map]
  rw [EF.sumL_map_fin]
  have hmu : EF.div (.fin qs.sum) (.fin (qs.length : ℚ)) = .fin (qmean qs) := by
    simp [EF.div, hne, qmean]
  rw [hmu]
  have hdev : (qs.map EF.fin).map
        (fun x => EF.mul (EF.sub x (.fin (qmean qs))) (EF.sub x (.fin (qmean qs)))) =
      (qs.map (fun x => (x - qmean qs) * (x - qmean qs))).map EF.fin := by
    rw [List.map_map, List.map_map]
    apply List.map_congr_left
    intro q hq
    simp [EF.sub, EF.add, EF.neg, EF.mul, sub_eq_add_neg]
  rw [hdev, EF.sumL_map_fin]
  simp [EF.div, hne1, sampleVarQ]

theorem maOf_getD (ps : List ℚ) (m : ℕ) (hm : m < ps.length) (k : ℕ) (d : ℚ) :
    (maOf k ps).getD m d = qmean (window k ps m) := by
  have hm2 : m < ((List.range ps.length).map
      (fun m => qmean (window k ps m))).length := by simpa using hm
  unfold maOf
  rw [List.getD_eq_getElem _ _ hm2, List.getElem_map, List.getElem_range]

theorem volOf_getD (ps : List ℚ) (m : ℕ) (hm : m < ps.length) (d : EF) :
    (volOf ps).getD m d =
      (if ((window 30 (returnsOf ps) m).filter (fun x => !x.isNan)).length < 1
       then EF.nan
       else sampleVarEF ((window 30 (returnsOf ps) m).filter (fun x => !x.isNan))) := by
  have hm2 : m < ((List.range (returnsOf ps).length).map (fun m =>
      let obs := (window 30 (returnsOf ps) m).filter (fun x => !x.isNan)
      if obs.length < 1 then EF.nan else sampleVarEF obs)).length := by
    simpa [returnsOf_length] using hm
  unfold volOf
  rw [List.getD_eq_getElem _ _ hm2, List.getElem_map, List.getElem_range]

theorem cumprodSkipNa_getD (d : EF) : ∀ (acc : EF) (l : List EF) (m : ℕ),
    m < l.length →
    (cumprodSkipNa acc l).getD m d =
      if (l.getD m .nan).isNan then .nan
      else ((l.take (m + 1)).filter (fun x => !x.isNan)).foldl EF.mul acc
  | _, [], m, hm => absurd hm (by simp)
  | acc, x :: t, 0, _ => by
    by_cases h : x.isNan <;>
      simp [cumprodSkipNa, h, List.take_succ_cons, List.take_zero]
  | acc, x :: t, m + 1, hm => by
    have hmt : m < t.length := by simpa using Nat.lt_of_succ_lt_succ hm
    by_cases h : x.isNan
    · have hf : List.filter (fun y => !y.isNan) (x :: List.take (m + 1) t) =
          List.filter (fun y => !y.isNan) (List.take (m + 1) t) :=
        List.filter_cons_of_neg (by simp [h])
      simp only [cumprodSkipNa, h, if_true, List.getD_cons_succ, List.take_succ_cons, hf]
      exact cumprodSkipNa_getD d acc t m hmt
    · have hf : List.filter (fun y => !y.isNan) (x :: List.take (m + 1) t) =
          x :: List.filter (fun y => !y.isNan) (List.take (m + 1) t) :=
        List.filter_cons_of_pos (by simp [h])
      simp only [cumprodSkipNa, h, if_false, List.getD_cons_succ, List.take_succ_cons, hf,
        List.foldl_cons]
      exact cumprodSkipNa_getD d (EF.mul acc x) t m hmt

theorem cumretOf_getD (ps : List ℚ) (m : ℕ) (hm : m < ps.length) (d : EF) :
    (cumretOf ps).getD m d =
      if ((returnsOf ps).getD m .nan).isNan then .nan
      else prodNonNan (growthFactors ((returnsOf ps).take (m + 1))) := by
  have hrl : m < (returnsOf ps).length := by rw [returnsOf_length]; exact hm
  have hml : m < ((returnsOf ps).map (fun r => EF.add (.fin 1) r)).length := by
    simpa using hrl
  unfold cumretOf prodNonNan growthFactors
  rw [cumprodSkipNa_getD d _ _ m hml]
  have hcond : (((returnsOf ps).map (fun r => EF.add (.fin 1) r)).getD m .nan).isNan =
      ((returnsOf ps).getD m .nan).isNan := by
    rw [List.getD_eq_getElem _ _ hml, List.getElem_map, List.getD_eq_getElem _ _ hrl]
    exact EF.isNan_add_one _
  rw [hcond, ← List.map_take]

/-! ### Deduplication and stability of the sort on the dedup key -/

theorem dedupAux_filter_key (k : Int × String) :
    ∀ (l : List RawRow) (seen : List (Int × String)),
    (dedupAux seen l).filter (fun r => decide (key r = k)) =
      if k ∈ seen then [] else (l.filter (fun r => decide (key r = k))).take 1
  | [], seen => by by_cases h : k ∈ seen <;> simp [dedupAux, h]
  | r :: rest, seen => by
    by_cases hks : key r ∈ seen
    · rw [dedupAux, if_pos hks, dedupAux_filter_key k rest seen]
      by_cases hk : k ∈ seen
      · simp [hk]
      · have hrk : ¬ key r = k := fun he => hk (he ▸ hks)
        rw [if_neg hk, if_neg hk, List.filter_cons_of_neg (by simp [hrk])]
    · rw [dedupAux, if_neg hks]
      by_cases hrk : key r = k
      · have hk : k ∉ seen := hrk ▸ hks
        rw [List.filter_cons_of_pos (by simp [hrk]),
          dedupAux_filter_key k rest (key r :: seen),
          if_pos (by simp [hrk]), if_neg hk,
          List.filter_cons_of_pos (by simp [hrk])]
        rfl
      · rw [List.filter_cons_of_neg (by simp [hrk]),
          dedupAux_filter_key k rest (key r :: seen)]
        by_cases hk : k ∈ seen
        · rw [if_pos (by simp [hk]), if_pos hk]
        · rw [if_neg (by simp [hk]; exact fun he => hrk he.symm), if_neg hk,
            List.filter_cons_of_neg (by simp [hrk])]

theorem dropDuplicates_filter_key (l : List RawRow) (k : Int × String) :
    (dropDuplicates l).filter (fun r => decide (key r = k)) =
      (l.filter (fun r => decide (key r = k))).take 1 := by
  rw [dropDuplicates, dedupAux_filter_key k l []]
  simp

theorem insertionSort_filter_date (p : RawRow → Bool)
    (hp : ∀ x y, p x = true → p y = true → x.date = y.date) :
    ∀ l : List RawRow, (List.insertionSort byDate l).filter p = l.filter p
  | [] => rfl
  | a :: l => by
    rw [List.insertionSort, List.orderedInsert_eq_take_drop, List.filter_append]
    have hsplit : (List.filter p (List.takeWhile (fun b => decide ¬byDate a b)
          (List.insertionSort byDate l))) ++
        (List.filter p (List.dropWhile (fun b => decide ¬byDate a b)
          (List.insertionSort byDate l))) =
        List.filter p (List.insertionSort byDate l) := by
      rw [← List.filter_append, List.takeWhile_append_dropWhile]
    by_cases hpa : p a = true
    · have htw : List.filter p (List.takeWhile (fun b => decide ¬byDate a b)
          (List.insertionSort byDate l)) = [] := by
        rw [List.filter_eq_nil_iff]
        intro x hx hpx
        have hx2 := List.mem_takeWhile_imp hx
        have hd := hp a x hpa hpx
        simp [byDate, hd] at hx2
      rw [htw, List.nil_append] at hsplit
      rw [htw, List.nil_append, List.filter_cons_of_pos hpa,
        List.filter_cons_of_pos hpa]
      rw [hsplit, insertionSort_filter_date p hp l]
    · rw [List.filter_cons_of_neg hpa, List.filter_cons_of_neg hpa, hsplit,
        insertionSort_filter_date p hp l]

theorem sortedDedup_filter_key (df : List RawRow) (k : Int × String) :
    (sortedDedup df).filter (fun r => decide (key r = k)) =
      (df.filter (fun r => decide (key r = k))).take 1 := by
  unfold sortedDedup
  rw [insertionSort_filter_date _ ?_ (dropDuplicates df), dropDuplicates_filter_key]
  intro x y hx hy
  have hx2 : key x = k := by simpa using hx
  have hy2 : key y = k := by simpa using hy
  have : x.date = k.1 := by rw [← hx2]; rfl
  have : y.date = k.1 := by rw [← hy2]; rfl
  omega

/-! ### The carried columns and the output order -/

theorem mapIdxFrom_id : ∀ (i : ℕ) (l : List α), mapIdxFrom (fun _ a => a) i l = l
  | _, [] => rfl
  | i, a :: t => by simp [mapIdxFrom, mapIdxFrom_id (i + 1) t]

theorem process_data_base (df : List RawRow) :
    (process_data df).map baseOf = sortedDedup df := by
  unfold process_data
  rw [mapIdxFrom_map]
  have h : (fun (j : ℕ) (r : RawRow) => baseOf (mkFeatureRow (sortedDedup df) j r)) =
      fun (_ : ℕ) (r : RawRow) => r := rfl
  rw [h, mapIdxFrom_id]

theorem process_data_dates_sorted (df : List RawRow) :
    List.Sorted (· ≤ ·) ((process_data df).map (fun r => r.date)) := by
  have h1 : List.Sorted byDate (sortedDedup df) := List.sorted_insertionSort byDate _
  have h2 : (process_data df).map (fun r => r.date) =
      (sortedDedup df).map (fun r => r.date) := by
    rw [← process_data_base df, List.map_map]
    rfl
  rw [h2]
  exact List.Pairwise.map _ (fun a b hab => hab) h1

theorem process_data_filter_fkey (df : List RawRow) (k : Int × String) :
    ((process_data df).filter (fun fr => decide (fkey fr = k))).map baseOf =
      (sortedDedup df).filter (fun r => decide (key r = k)) := by
  have h : (fun fr => decide (fkey fr = k)) =
      (fun r => decide (key r = k)) ∘ baseOf := rfl
  rw [h, ← List.filter_map, process_data_base]

/-! ### The orchestration loop -/

theorem run_pipeline_none (coins : List String) (fetches : String → Option (List RawRow))
    (h : ∀ c ∈ coins, fetches c = none) : run_pipeline coins fetches = none := by
  unfold run_pipeline
  have he : coins.filterMap fetches = [] := List.filterMap_eq_nil_iff.2 h
  simp [he]

theorem run_pipeline_some (coins : List String) (fetches : String → Option (List RawRow))
    (h : ∃ c ∈ coins, fetches c ≠ none) :
    ∃ t, run_pipeline coins fetches = some t := by
  unfold run_pipeline
  obtain ⟨c, hc, hf⟩ := h
  have hne : coins.filterMap fetches ≠ [] := by
    intro he
    exact hf (List.filterMap_eq_nil_iff.1 he c hc)
  simp only [List.isEmpty_iff, if_neg hne]
  exact ⟨_, rfl⟩

/-! ### Per-asset independence: dedup and sort commute with a coin filter -/

theorem filterQ_cons_pos (Q : String → Bool) (r : RawRow) (l : List RawRow)
    (hq : Q r.coin = true) :
    (r :: l).filter (fun x => Q x.coin) = r :: l.filter (fun x => Q x.coin) :=
  List.filter_cons_of_pos hq

theorem takeWhileD_cons_pos (a b : RawRow) (l : List RawRow)
    (h : (decide ¬byDate a b) = true) :
    List.takeWhile (fun x => decide ¬byDate a x) (b :: l) =
      b :: List.takeWhile (fun x => decide ¬byDate a x) l :=
  List.takeWhile_cons_of_pos h

theorem takeWhileD_cons_neg (a b : RawRow) (l : List RawRow)
    (h : ¬ (decide ¬byDate a b) = true) :
    List.takeWhile (fun x => decide ¬byDate a x) (b :: l) = [] :=
  List.takeWhile_cons_of_neg h

theorem dedupAux_filter_coin (Q : String → Bool) :
    ∀ (l : List RawRow) (seen1 seen2 : List (Int × String)),
    (∀ r : RawRow, Q r.coin = true → (key r ∈ seen1 ↔ key r ∈ seen2)) →
    dedupAux seen1 (l.filter (fun r => Q r.coin)) =
      (dedupAux seen2 l).filter (fun r => Q r.coin)
  | [], _, _, _ => rfl
  | r :: rest, seen1, seen2, hsame => by
    by_cases hq : Q r.coin = true
    · rw [filterQ_cons_pos Q r rest hq]
      by_cases hks : key r ∈ seen2
      · have h1 : key r ∈ seen1 := (hsame r hq).2 hks
        rw [dedupAux, if_pos h1, dedupAux, if_pos hks]
        exact dedupAux_filter_coin Q rest seen1 seen2 hsame
      · have h1 : key r ∉ seen1 := fun h => hks ((hsame r hq).1 h)
        rw [dedupAux, if_neg h1, dedupAux, if_neg hks, filterQ_cons_pos Q _ _ hq]
        congr 1
        exact dedupAux_filter_coin Q rest (key r :: seen1) (key r :: seen2) (by
          intro x hx
          simp [List.mem_cons, hsame x hx])
    · rw [List.filter_cons_of_neg (by simp [hq])]
      by_cases hks : key r ∈ seen2
      · rw [dedupAux, if_pos hks]
        exact dedupAux_filter_coin Q rest seen1 seen2 hsame
      · rw [dedupAux, if_neg hks, List.filter_cons_of_neg (by simp [hq])]
        refine dedupAux_filter_coin Q rest seen1 (key r :: seen2) ?_
        intro x hx
        have hne : key x ≠ key r := by
          intro he
          have hcoin : x.coin = r.coin := congrArg Prod.snd he
          exact hq (hcoin ▸ hx)
        rw [hsame x hx]
        simp only [List.mem_cons]
        constructor
        · exact Or.inr
        · rintro (h | h)
          · exact absurd h hne
          · exact h

theorem dropDuplicates_filter_coin (Q : String → Bool) (l : List RawRow) :
    dropDuplicates (l.filter (fun r => Q r.coin)) =
      (dropDuplicates l).filter (fun r => Q r.coin) :=
  dedupAux_filter_coin Q l [] [] (fun _ _ => Iff.rfl)

theorem takeWhile_filter_of_sorted (a : RawRow) (p : RawRow → Bool) :
    ∀ (S : List RawRow), List.Sorted byDate S →
    List.takeWhile (fun b => decide ¬byDate a b) (S.filter p) =
      List.filter p (List.takeWhile (fun b => decide ¬byDate a b) S)
  | [], _ => rfl
  | b :: S, hs => by
    have hs2 : List.Sorted byDate S := hs.of_cons
    by_cases hd : (decide ¬byDate a b) = true
    · by_cases hp : p b = true
      · rw [List.filter_cons_of_pos hp, takeWhileD_cons_pos a b (S.filter p) hd,
          takeWhileD_cons_pos a b S hd, List.filter_cons_of_pos hp]
        congr 1
        exact takeWhile_filter_of_sorted a p S hs2
      · rw [List.filter_cons_of_neg hp, takeWhileD_cons_pos a b S hd,
          List.filter_cons_of_neg hp]
        exact takeWhile_filter_of_sorted a p S hs2
    · have hab : byDate a b := by
        by_contra hno
        exact hd (by simpa using hno)
      have hall : ∀ x ∈ S, ¬ (decide ¬byDate a x) = true := by
        intro x hx
        have hbx : byDate b x := List.rel_of_sorted_cons hs x hx
        have : byDate a x := Int.le_trans hab hbx
        simpa using this
      have hrhs : List.filter p (List.takeWhile (fun x => decide ¬byDate a x) (b :: S)) =
          [] := by
        rw [takeWhileD_cons_neg a b S hd]
        rfl
      rw [hrhs]
      by_cases hp : p b = true
      · rw [List.filter_cons_of_pos hp, takeWhileD_cons_neg a b (S.filter p) hd]
      · rw [List.filter_cons_of_neg hp]
        cases hfe : S.filter p with
        | nil => simp
        | cons y ys =>
          have hy : y ∈ S.filter p := by rw [hfe]; exact List.mem_cons_self _ _
          have hyS : y ∈ S := List.mem_of_mem_filter hy
          rw [takeWhileD_cons_neg a y ys (hall y hyS)]

theorem dropWhile_filter_of_sorted (a : RawRow) (p : RawRow → Bool) (S : List RawRow)
    (hs : List.Sorted byDate S) :
    List.dropWhile (fun b => decide ¬byDate a b) (S.filter p) =
      List.filter p (List.dropWhile (fun b => decide ¬byDate a b) S) := by
  have h1 := List.takeWhile_append_dropWhile (fun b => decide ¬byDate a b) (S.filter p)
  have h2 : List.filter p (List.takeWhile (fun b => decide ¬byDate a b) S) ++
      List.filter p (List.dropWhile (fun b => decide ¬byDate a b) S) = S.filter p := by
    rw [← List.filter_append, List.takeWhile_append_dropWhile]
  rw [takeWhile_filter_of_sorted a p S hs] at h1
  exact List.append_cancel_left (h1.trans h2.symm)

theorem insertionSort_filter (p : RawRow → Bool) :
    ∀ l : List RawRow, (List.insertionSort byDate l).filter p =
      List.insertionSort byDate (l.filter p)
  | [] => rfl
  | a :: l => by
    rw [List.insertionSort, List.orderedInsert_eq_take_drop, List.filter_append]
    have hs : List.Sorted byDate (List.insertionSort byDate l) :=
      List.sorted_insertionSort byDate l
    by_cases hp : p a = true
    · rw [List.filter_cons_of_pos hp,
        ← takeWhile_filter_of_sorted a p _ hs, ← dropWhile_filter_of_sorted a p _ hs,
        insertionSort_filter p l, List.filter_cons_of_pos hp, List.insertionSort,
        List.orderedInsert_eq_take_drop]
    · have hsplit : List.filter p (List.takeWhile (fun b => decide ¬byDate a b)
          (List.insertionSort byDate l)) ++
          List.filter p (List.dropWhile (fun b => decide ¬byDate a b)
          (List.insertionSort byDate l)) =
          List.filter p (List.insertionSort byDate l) := by
        rw [← List.filter_append, List.takeWhile_append_dropWhile]
      rw [List.filter_cons_of_neg hp, hsplit, insertionSort_filter p l,
        List.filter_cons_of_neg hp]

theorem sortedDedup_filter_coin (Q : String → Bool) (df : List RawRow) :
    sortedDedup (df.filter (fun r => Q r.coin)) =
      (sortedDedup df).filter (fun r => Q r.coin) := by
  unfold sortedDedup
  rw [dropDuplicates_filter_coin, insertionSort_filter]

theorem outputGroup_filter_coin (Q : String → Bool) (df : List RawRow) (c : String)
    (hQ : Q c = true) :
    outputGroup (df.filter (fun r => Q r.coin)) c = outputGroup df c := by
  rw [outputGroup_eq, outputGroup_eq, sortedDedup_filter_coin]
  have hff : ((sortedDedup df).filter (fun r => Q r.coin)).filter
      (fun r => decide (r.coin = c)) =
      (sortedDedup df).filter (fun r => decide (r.coin = c)) := by
    rw [List.filter_filter]
    apply List.filter_congr
    intro r _
    by_cases h : r.coin = c
    · simp [h, hQ]
    · simp [h]
  have hgp : groupPrices ((sortedDedup df).filter (fun r => Q r.coin)) c =
      groupPrices (sortedDedup df) c := by
    unfold groupPrices
    rw [hff]
  rw [hff, hgp]

/-! ### Series-level consequences used by the claims -/

theorem returnsOf_not_finite (ps : List ℚ) (m : ℕ) (hm : m + 1 < ps.length)
    (hz : ps.getD m 0 = 0) :
    ((returnsOf ps).getD (m + 1) .nan).isFinite = false := by
  rw [returnsOf_getD_succ ps m hm, hz]
  exact EF.return_formula_zero_denom _

theorem cumretOf_not_finite (ps : List ℚ) (m : ℕ) (hm : m + 1 < ps.length)
    (hz : ps.getD m 0 = 0) :
    ((cumretOf ps).getD (m + 1) .nan).isFinite = false := by
  have hrfin := returnsOf_not_finite ps m hm hz
  rw [cumretOf_getD ps (m + 1) hm .nan]
  by_cases hnan : ((returnsOf ps).getD (m + 1) .nan).isNan
  · rw [if_pos hnan]
    rfl
  · rw [if_neg hnan]
    have hlen : m + 1 < (returnsOf ps).length := by rw [returnsOf_length]; exact hm
    have htake : (returnsOf ps).take (m + 1 + 1) =
        (returnsOf ps).take (m + 1) ++ [(returnsOf ps).getD (m + 1) .nan] := by
      rw [List.take_succ]
      congr 1
      rw [List.getElem?_eq_getElem hlen, List.getD_eq_getElem _ _ hlen]
      rfl
    rw [htake]
    unfold prodNonNan growthFactors
    rw [List.map_append, List.filter_append]
    simp only [List.map_cons, List.map_nil]
    rw [List.filter_cons_of_pos (by simp [EF.isNan_add_one]; simpa using hnan)]
    rw [List.foldl_append]
    simp only [List.filter_nil, List.foldl_cons, List.foldl_nil]
    apply EF.mul_not_finite
    rw [EF.isFinite_add_one]
    exact hrfin

/-! ### Claim C1 (cumulative return) -/

/-- C1 counterexample: the claim says cumulative returns for prices
100, 110, 121 are [1.0, 1.10, 1.21] with 1.0 on the asset's first row;
the code's `(1 + x).cumprod()` leaves the first row's cell NaN (pandas
`cumprod` skips NaN but keeps the cell NaN), so the output is
[NaN, 1.10, 1.21], refuting the claim at this input. -/
theorem C1_counterexample :
    ¬ ((process_data dfComp).map (fun r => r.cumulative_return) =
      [.fin 1, .fin (11/10), .fin (121/100)]) := by
  have h : (process_data dfComp).map (fun r => r.cumulative_return) =
      [.nan, .fin (11/10), .fin (121/100)] := by
    norm_num [process_data, mapIdxFrom, mkFeatureRow, featureOfGroup, sortedDedup,
      dropDuplicates, dedupAux, key, List.insertionSort, List.orderedInsert, byDate,
      groupPrices, rankIn, returnsOf, returnsAux, maOf, volOf, cumretOf, cumprodSkipNa,
      window, qmean, sampleVarEF, EF.div, EF.add, EF.sub, EF.mul, EF.neg, EF.isNan,
      EF.sumL, dfComp]
  rw [h]
  simp

/-- C1 (amended): within each asset group of `process_data`'s output, the
cumulative return at group position `m` is NaN when that row's daily
return is NaN (in particular on each asset's first row, where the spec
claimed 1.0), and otherwise equals the product of the non-NaN growth
factors `1 + daily_return` over group positions `0..m` (the NaN factors
being skipped, i.e. treated as 1); for prices 100, 110, 121 the column is
[NaN, 1.10, 1.21]. -/
theorem C1_cumulative_return :
    (∀ (df : List RawRow) (c : String) (m : ℕ),
      m < (outputGroup df c).length →
      ((outputGroup df c).getD m default).cumulative_return =
        if (((outputGroup df c).getD m default).daily_return).isNan then .nan
        else prodNonNan (growthFactors
          (((outputGroup df c).map (fun r => r.daily_return)).take (m + 1)))) ∧
    (∀ (df : List RawRow) (c : String),
      0 < (outputGroup df c).length →
      ((outputGroup df c).getD 0 default).cumulative_return = .nan) ∧
    (process_data dfComp).map (fun r => r.cumulative_return) =
      [.nan, .fin (11/10), .fin (121/100)] := by
  have hmain : ∀ (df : List RawRow) (c : String) (m : ℕ),
      m < (outputGroup df c).length →
      ((outputGroup df c).getD m default).cumulative_return =
        if (((outputGroup df c).getD m default).daily_return).isNan then .nan
        else prodNonNan (growthFactors
          (((outputGroup df c).map (fun r => r.daily_return)).take (m + 1))) := by
    intro df c m hm
    have hmp : m < (groupPrices (sortedDedup df) c).length := by
      rw [← outputGroup_length]; exact hm
    rw [col_getD _ m hm (fun r => r.cumulative_return) EF.nan, outputGroup_cumret,
      col_getD _ m hm (fun r => r.daily_return) EF.nan, outputGroup_daily_return]
    exact cumretOf_getD _ _ hmp EF.nan
  refine ⟨hmain, ?_, ?_⟩
  · intro df c h0
    have h0p : 0 < (groupPrices (sortedDedup df) c).length := by
      rw [← outputGroup_length]; exact h0
    rw [hmain df c 0 h0, col_getD _ 0 h0 (fun r => r.daily_return) EF.nan,
      outputGroup_daily_return, returnsOf_getD_zero _ h0p]
    rfl
  · norm_num [process_data, mapIdxFrom, mkFeatureRow, featureOfGroup, sortedDedup,
      dropDuplicates, dedupAux, key, List.insertionSort, List.orderedInsert, byDate,
      groupPrices, rankIn, returnsOf, returnsAux, maOf, volOf, cumretOf, cumprodSkipNa,
      window, qmean, sampleVarEF, EF.div, EF.add, EF.sub, EF.mul, EF.neg, EF.isNan,
      EF.sumL, dfComp]

/-- Witness for C1's amended theorem at a concrete input: the first row of
asset "a" of the 100/110/121 input has NaN cumulative return. -/
theorem C1_cumulative_return_witness :
    ((outputGroup dfComp "a").getD 0 default).cumulative_return = .nan :=
  C1_cumulative_return.2.1 dfComp "a" (by
    norm_num [outputGroup, process_data, mapIdxFrom, mkFeatureRow, featureOfGroup,
      sortedDedup, dropDuplicates, dedupAux, key, List.insertionSort,
      List.orderedInsert, byDate, groupPrices, rankIn, returnsOf, returnsAux, maOf,
      volOf, cumretOf, cumprodSkipNa, window, qmean, sampleVarEF, EF.div, EF.add,
      EF.sub, EF.mul, EF.neg, EF.isNan, EF.sumL, dfComp])

/-! ### Claim C6 (daily return) -/

set_option maxHeartbeats 2000000 in
/-- C6 counterexample: the claim says `daily_return` is null exactly at
each asset's first row; for the price sequence 0, 0 the second row's
return is 0/0 = NaN, i.e. null at a non-first row. -/
theorem C6_counterexample :
    1 < (outputGroup dfZeros "a").length ∧
    ((outputGroup dfZeros "a").getD 1 default).daily_return = .nan := by
  constructor <;>
    norm_num [outputGroup, process_data, mapIdxFrom, mkFeatureRow, featureOfGroup,
      sortedDedup, dropDuplicates, dedupAux, key, List.insertionSort,
      List.orderedInsert, byDate, groupPrices, rankIn, returnsOf, returnsAux, maOf,
      volOf, cumretOf, cumprodSkipNa, window, qmean, sampleVarEF, EF.div, EF.add,
      EF.sub, EF.mul, EF.neg, EF.isNan, EF.sumL, dfZeros]

/-- C6 (amended): within each asset group of the output, `daily_return` is
null (NaN) on the group's first row; on every later row it equals the
floating-point value of `price[i]/price[i-1] - 1` computed against the
previous row of the same asset; a later row's return is null exactly when
the current and the previous price are both 0 (the 0/0 case) — so with
nonzero prices, null occurs exactly on each asset's first row. -/
theorem C6_daily_return :
    (∀ (df : List RawRow) (c : String),
      0 < (outputGroup df c).length →
      ((outputGroup df c).getD 0 default).daily_return = .nan) ∧
    (∀ (df : List RawRow) (c : String) (m : ℕ),
      m + 1 < (outputGroup df c).length →
      ((outputGroup df c).getD (m + 1) default).daily_return =
        EF.sub (EF.div (.fin ((outputGroup df c).getD (m + 1) default).price)
          (.fin ((outputGroup df c).getD m default).price)) (.fin 1)) ∧
    (∀ (df : List RawRow) (c : String) (m : ℕ),
      m + 1 < (outputGroup df c).length →
      (((outputGroup df c).getD (m + 1) default).daily_return = .nan ↔
        ((outputGroup df c).getD m default).price = 0 ∧
        ((outputGroup df c).getD (m + 1) default).price = 0)) := by
  have hprice : ∀ (df : List RawRow) (c : String) (m : ℕ),
      m < (outputGroup df c).length →
      ((outputGroup df c).getD m default).price =
        (groupPrices (sortedDedup df) c).getD m 0 := by
    intro df c m hm
    rw [col_getD _ m hm (fun r => r.price) 0, outputGroup_prices]
  have hform : ∀ (df : List RawRow) (c : String) (m : ℕ),
      m + 1 < (outputGroup df c).length →
      ((outputGroup df c).getD (m + 1) default).daily_return =
        EF.sub (EF.div (.fin ((outputGroup df c).getD (m + 1) default).price)
          (.fin ((outputGroup df c).getD m default).price)) (.fin 1) := by
    intro df c m hm
    have hmp : m + 1 < (groupPrices (sortedDedup df) c).length := by
      rw [← outputGroup_length]; exact hm
    rw [col_getD _ (m + 1) hm (fun r => r.daily_return) EF.nan,
      outputGroup_daily_return, returnsOf_getD_succ _ _ hmp,
      hprice df c (m + 1) hm, hprice df c m (Nat.lt_of_succ_lt hm)]
  refine ⟨?_, hform, ?_⟩
  · intro df c h0
    have h0p : 0 < (groupPrices (sortedDedup df) c).length := by
      rw [← outputGroup_length]; exact h0
    rw [col_getD _ 0 h0 (fun r => r.daily_return) EF.nan,
      outputGroup_daily_return, returnsOf_getD_zero _ h0p]
  · intro df c m hm
    rw [hform df c m hm]
    constructor
    · intro h
      have h2 := (EF.return_formula_nan_iff _ _).1 (by rw [h]; rfl)
      exact ⟨h2.1, h2.2⟩
    · rintro ⟨h1, h2⟩
      rw [h1, h2]
      rfl

theorem window_length_le (k : ℕ) (xs : List α) (m : ℕ) :
    (window k xs m).length ≤ m + 1 := by
  unfold window
  rw [List.length_drop, List.length_take]
  omega

/-! ### Claim C3 (rolling volatility) -/

/-- C3: within each asset group of the output, the (squared) 30-day
volatility at group position `m` is computed from the non-NaN daily
returns of the trailing 30-row window ending at `m`: it is NaN when fewer
than 2 such values exist (in particular on each group's first two rows),
and equals the sample variance (N-1 denominator) of those values when
they are at least 2 finite numbers — i.e. the column is the sample
standard deviation of the window's non-null returns, stated through its
square. -/
theorem C3_volatility :
    (∀ (df : List RawRow) (c : String) (m : ℕ),
      m < (outputGroup df c).length →
      ((((window 30 ((outputGroup df c).map (fun r => r.daily_return)) m).filter
          (fun x => !x.isNan)).length < 2 →
        ((outputGroup df c).getD m default).volatility_30d_sq = .nan) ∧
      (∀ qs : List ℚ,
        (window 30 ((outputGroup df c).map (fun r => r.daily_return)) m).filter
          (fun x => !x.isNan) = qs.map EF.fin → 2 ≤ qs.length →
        ((outputGroup df c).getD m default).volatility_30d_sq =
          .fin (sampleVarQ qs)))) ∧
    (∀ (df : List RawRow) (c : String),
      0 < (outputGroup df c).length →
      ((outputGroup df c).getD 0 default).volatility_30d_sq = .nan) ∧
    (∀ (df : List RawRow) (c : String),
      1 < (outputGroup df c).length →
      ((outputGroup df c).getD 1 default).volatility_30d_sq = .nan) := by
  have hmain : ∀ (df : List RawRow) (c : String) (m : ℕ),
      m < (outputGroup df c).length →
      ((((window 30 ((outputGroup df c).map (fun r => r.daily_return)) m).filter
          (fun x => !x.isNan)).length < 2 →
        ((outputGroup df c).getD m default).volatility_30d_sq = .nan) ∧
      (∀ qs : List ℚ,
        (window 30 ((outputGroup df c).map (fun r => r.daily_return)) m).filter
          (fun x => !x.isNan) = qs.map EF.fin → 2 ≤ qs.length →
        ((outputGroup df c).getD m default).volatility_30d_sq =
          .fin (sampleVarQ qs))) := by
    intro df c m hm
    have hmp : m < (groupPrices (sortedDedup df) c).length := by
      rw [← outputGroup_length]; exact hm
    rw [outputGroup_daily_return,
      col_getD _ m hm (fun r => r.volatility_30d_sq) EF.nan, outputGroup_vol,
      volOf_getD _ _ hmp]
    constructor
    · intro hlt
      rcases (by omega :
          ((window 30 (returnsOf (groupPrices (sortedDedup df) c)) m).filter
            (fun x => !x.isNan)).length = 0 ∨
          ((window 30 (returnsOf (groupPrices (sortedDedup df) c)) m).filter
            (fun x => !x.isNan)).length = 1) with h0 | h1
      · rw [if_pos (by omega)]
      · obtain ⟨x, hx⟩ := List.length_eq_one.1 h1
        rw [if_neg (by omega), hx, sampleVarEF_singleton]
    · intro qs hobs h2
      have hlen : ((window 30 (returnsOf (groupPrices (sortedDedup df) c)) m).filter
          (fun x => !x.isNan)).length = qs.length := by rw [hobs]; simp
      rw [if_neg (by omega), hobs, sampleVarEF_map_fin qs h2]
  refine ⟨hmain, ?_, ?_⟩
  · intro df c h0
    refine (hmain df c 0 h0).1 ?_
    have h1 := List.length_filter_le (fun (x : EF) => !x.isNan)
      (window 30 ((outputGroup df c).map (fun r => r.daily_return)) 0)
    have h2 := window_length_le 30 ((outputGroup df c).map (fun r => r.daily_return)) 0
    omega
  · intro df c h1
    refine (hmain df c 1 h1).1 ?_
    rw [outputGroup_daily_return]
    have h1p : 1 < (groupPrices (sortedDedup df) c).length := by
      rw [← outputGroup_length]; exact h1
    rcases hps : groupPrices (sortedDedup df) c with _ | ⟨p, t⟩
    · rw [hps] at h1p; simp at h1p
    · have hw : window 30 (returnsOf (p :: t)) 1 = (returnsOf (p :: t)).take 2 := by
        unfold window
        norm_num
      rw [hw]
      show (List.filter _ (List.take 2 (EF.nan :: returnsAux p t))).length < 2
      rw [List.take_succ_cons, List.filter_cons_of_neg (by simp [EF.isNan])]
      have hf := List.length_filter_le (fun (x : EF) => !x.isNan)
        ((returnsAux p t).take 1)
      have ht := List.length_take_le 1 (returnsAux p t)
      omega

set_option maxHeartbeats 2000000 in
/-- Witness for C3 at a concrete input: for prices 10, 20, 30, 40, 50 the
trailing window at group position 2 holds the two finite returns 1 and
1/2, and the squared volatility equals their sample variance. -/
theorem C3_volatility_witness :
    ((outputGroup dfFive "a").getD 2 default).volatility_30d_sq =
      .fin (sampleVarQ [1, 1/2]) :=
  (C3_volatility.1 dfFive "a" 2 (by
      norm_num [outputGroup, process_data, mapIdxFrom, mkFeatureRow, featureOfGroup,
        sortedDedup, dropDuplicates, dedupAux, key, List.insertionSort,
        List.orderedInsert, byDate, groupPrices, rankIn, returnsOf, returnsAux, maOf,
        volOf, cumretOf, cumprodSkipNa, window, qmean, sampleVarEF, EF.div, EF.add,
        EF.sub, EF.mul, EF.neg, EF.isNan, EF.sumL, dfFive])).2 [1, 1/2] (by
      norm_num [outputGroup, process_data, mapIdxFrom, mkFeatureRow, featureOfGroup,
        sortedDedup, dropDuplicates, dedupAux, key, List.insertionSort,
        List.orderedInsert, byDate, groupPrices, rankIn, returnsOf, returnsAux, maOf,
        volOf, cumretOf, cumprodSkipNa, window, qmean, sampleVarEF, EF.div, EF.add,
        EF.sub, EF.mul, EF.neg, EF.isNan, EF.sumL, dfFive]) (by norm_num)

/-! ### Claim C5 (moving averages) -/

set_option maxHeartbeats 2000000 in
/-- C5: within each asset group of the output, `ma_7` (resp. `ma_30`) at
group position `m` is the arithmetic mean of the group's prices over the
trailing window of rows `max 0 (m-6) .. m` (resp. `max 0 (m-29) .. m`) —
the window shrinks near the start and no cell is null; for prices
10, 20, 30, 40, 50 the fifth row's `ma_7` is 30, and a one-row asset has
`ma_7 = ma_30 = price`. -/
theorem C5_moving_averages :
    (∀ (df : List RawRow) (c : String) (m : ℕ),
      m < (outputGroup df c).length →
      ((outputGroup df c).getD m default).ma_7 =
        qmean (window 7 ((outputGroup df c).map (fun r => r.price)) m) ∧
      ((outputGroup df c).getD m default).ma_30 =
        qmean (window 30 ((outputGroup df c).map (fun r => r.price)) m)) ∧
    ((outputGroup dfFive "a").getD 4 default).ma_7 = 30 ∧
    ((outputGroup dfOne "a").getD 0 default).ma_7 = 42 ∧
    ((outputGroup dfOne "a").getD 0 default).ma_30 = 42 := by
  refine ⟨?_, ?_, ?_, ?_⟩
  · intro df c m hm
    have hmp : m < (groupPrices (sortedDedup df) c).length := by
      rw [← outputGroup_length]; exact hm
    constructor
    · rw [outputGroup_prices, col_getD _ m hm (fun r => r.ma_7) 0, outputGroup_ma7,
        maOf_getD _ _ hmp]
    · rw [outputGroup_prices, col_getD _ m hm (fun r => r.ma_30) 0, outputGroup_ma30,
        maOf_getD _ _ hmp]
  all_goals
    norm_num [outputGroup, process_data, mapIdxFrom, mkFeatureRow, featureOfGroup,
      sortedDedup, dropDuplicates, dedupAux, key, List.insertionSort,
      List.orderedInsert, byDate, groupPrices, rankIn, returnsOf, returnsAux, maOf,
      volOf, cumretOf, cumprodSkipNa, window, qmean, sampleVarEF, EF.div, EF.add,
      EF.sub, EF.mul, EF.neg, EF.isNan, EF.sumL, dfFive, dfOne]

set_option maxHeartbeats 2000000 in
/-- Witness for C5 at a concrete input: the fifth row of the
10/20/30/40/50 asset has `ma_7` equal to the mean of its (shrunken)
trailing window. -/
theorem C5_moving_averages_witness :
    ((outputGroup dfFive "a").getD 4 default).ma_7 =
      qmean (window 7 ((outputGroup dfFive "a").map (fun r => r.price)) 4) :=
  (C5_moving_averages.1 dfFive "a" 4 (by
    norm_num [outputGroup, process_data, mapIdxFrom, mkFeatureRow, featureOfGroup,
      sortedDedup, dropDuplicates, dedupAux, key, List.insertionSort,
      List.orderedInsert, byDate, groupPrices, rankIn, returnsOf, returnsAux, maOf,
      volOf, cumretOf, cumprodSkipNa, window, qmean, sampleVarEF, EF.div, EF.add,
      EF.sub, EF.mul, EF.neg, EF.isNan, EF.sumL, dfFive])).1

/-! ### Claim C4 (zero-price edge case) -/

set_option maxHeartbeats 2000000 in
/-- C4: if a row's predecessor within its asset group has price exactly 0,
the engine does not fail: that row's daily return is a non-finite value,
and the cumulative return of the same row is non-finite as well (the
non-finite value propagates instead of being replaced by 0); for the
price sequence 0, 5 the columns are `daily_return = [NaN, +inf]`,
`volatility_30d_sq = [NaN, NaN]`, `cumulative_return = [NaN, +inf]`. -/
theorem C4_zero_price :
    (∀ (df : List RawRow) (c : String) (m : ℕ),
      m + 1 < (outputGroup df c).length →
      ((outputGroup df c).getD m default).price = 0 →
      ((outputGroup df c).getD (m + 1) default).daily_return.isFinite = false ∧
      ((outputGroup df c).getD (m + 1) default).cumulative_return.isFinite = false) ∧
    (process_data dfZeroFive).map (fun r => r.daily_return) = [.nan, .inf] ∧
    (process_data dfZeroFive).map (fun r => r.volatility_30d_sq) = [.nan, .nan] ∧
    (process_data dfZeroFive).map (fun r => r.cumulative_return) = [.nan, .inf] := by
  refine ⟨?_, ?_, ?_, ?_⟩
  · intro df c m hm hz
    have hmp : m + 1 < (groupPrices (sortedDedup df) c).length := by
      rw [← outputGroup_length]; exact hm
    have hzp : (groupPrices (sortedDedup df) c).getD m 0 = 0 := by
      have h := col_getD (outputGroup df c) m (Nat.lt_of_succ_lt hm)
        (fun r => r.price) (0 : ℚ)
      rw [outputGroup_prices] at h
      rw [← h]
      exact hz
    constructor
    · rw [col_getD _ (m + 1) hm (fun r => r.daily_return) EF.nan,
        outputGroup_daily_return]
      exact returnsOf_not_finite _ m hmp hzp
    · rw [col_getD _ (m + 1) hm (fun r => r.cumulative_return) EF.nan,
        outputGroup_cumret]
      exact cumretOf_not_finite _ m hmp hzp
  all_goals
    norm_num [process_data, mapIdxFrom, mkFeatureRow, featureOfGroup, sortedDedup,
      dropDuplicates, dedupAux, key, List.insertionSort, List.orderedInsert, byDate,
      groupPrices, rankIn, returnsOf, returnsAux, maOf, volOf, cumretOf,
      cumprodSkipNa, window, qmean, sampleVarEF, EF.div, EF.add, EF.sub, EF.mul,
      EF.neg, EF.isNan, EF.sumL, dfZeroFive]

set_option maxHeartbeats 2000000 in
/-- Witness for C4 at a concrete input: in the 0, 5 price sequence, the
second row (whose predecessor's price is 0) has non-finite daily return
and non-finite cumulative return. -/
theorem C4_zero_price_witness :
    ((outputGroup dfZeroFive "a").getD 1 default).daily_return.isFinite = false ∧
    ((outputGroup dfZeroFive "a").getD 1 default).cumulative_return.isFinite = false :=
  C4_zero_price.1 dfZeroFive "a" 0 (by
      norm_num [outputGroup, process_data, mapIdxFrom, mkFeatureRow, featureOfGroup,
        sortedDedup, dropDuplicates, dedupAux, key, List.insertionSort,
        List.orderedInsert, byDate, groupPrices, rankIn, returnsOf, returnsAux, maOf,
        volOf, cumretOf, cumprodSkipNa, window, qmean, sampleVarEF, EF.div, EF.add,
        EF.sub, EF.mul, EF.neg, EF.isNan, EF.sumL, dfZeroFive]) (by
      norm_num [outputGroup, process_data, mapIdxFrom, mkFeatureRow, featureOfGroup,
        sortedDedup, dropDuplicates, dedupAux, key, List.insertionSort,
        List.orderedInsert, byDate, groupPrices, rankIn, returnsOf, returnsAux, maOf,
        volOf, cumretOf, cumprodSkipNa, window, qmean, sampleVarEF, EF.div, EF.add,
        EF.sub, EF.mul, EF.neg, EF.isNan, EF.sumL, dfZeroFive])

/-- Witness for C6's amended theorem at a concrete input: the second row
of the 100/110/121 input has return 110/100 - 1 = 0.10, and it is not
null since the prices are nonzero. -/
theorem C6_daily_return_witness :
    ((outputGroup dfComp "a").getD 1 default).daily_return =
      EF.sub (EF.div (.fin ((outputGroup dfComp "a").getD 1 default).price)
        (.fin ((outputGroup dfComp "a").getD 0 default).price)) (.fin 1) :=
  C6_daily_return.2.1 dfComp "a" 0 (by
    norm_num [outputGroup, process_data, mapIdxFrom, mkFeatureRow, featureOfGroup,
      sortedDedup, dropDuplicates, dedupAux, key, List.insertionSort,
      List.orderedInsert, byDate, groupPrices, rankIn, returnsOf, returnsAux, maOf,
      volOf, cumretOf, cumprodSkipNa, window, qmean, sampleVarEF, EF.div, EF.add,
      EF.sub, EF.mul, EF.neg, EF.isNan, EF.sumL, dfComp])

/-! ### Claim C2 (dedup key uniqueness, survivor after the sort) -/

/-- C2: for every input and every `(date, coin)` key, the output holds
exactly one row for that key when the key occurs in the input and none
otherwise; the surviving row's carried columns are those of the first
row bearing that key in the date-sorted input (first-occurrence-after-sort
wins: duplicates share their date, and the sort is stable, so this is
well defined). -/
theorem C2_dedup_unique :
    ∀ (df : List RawRow) (k : Int × String),
      (((process_data df).filter (fun fr => decide (fkey fr = k))).map baseOf =
        ((List.insertionSort byDate df).filter (fun r => decide (key r = k))).take 1) ∧
      ((process_data df).filter (fun fr => decide (fkey fr = k))).length =
        (if df.any (fun r => decide (key r = k)) then 1 else 0) := by
  intro df k
  have hdate : ∀ x y : RawRow, (decide (key x = k)) = true →
      (decide (key y = k)) = true → x.date = y.date := by
    intro x y hx hy
    have hx2 : key x = k := by simpa using hx
    have hy2 : key y = k := by simpa using hy
    have h1 : x.date = k.1 := by rw [← hx2]; rfl
    have h2 : y.date = k.1 := by rw [← hy2]; rfl
    omega
  have hbase : ((process_data df).filter (fun fr => decide (fkey fr = k))).map baseOf =
      (df.filter (fun r => decide (key r = k))).take 1 := by
    rw [process_data_filter_fkey, sortedDedup_filter_key]
  constructor
  · rw [hbase, insertionSort_filter_date _ hdate df]
  · have hlen : ((process_data df).filter (fun fr => decide (fkey fr = k))).length =
        ((df.filter (fun r => decide (key r = k))).take 1).length := by
      rw [← hbase, List.length_map]
    rw [hlen, List.length_take]
    by_cases h : df.any (fun r => decide (key r = k)) = true
    · rw [if_pos h]
      obtain ⟨x, hx, hpx⟩ := List.any_eq_true.1 h
      have hmem : x ∈ df.filter (fun r => decide (key r = k)) :=
        List.mem_filter.2 ⟨hx, hpx⟩
      have hpos : 0 < (df.filter (fun r => decide (key r = k))).length :=
        List.length_pos.2 (List.ne_nil_of_mem hmem)
      omega
    · rw [if_neg h]
      have hnil : df.filter (fun r => decide (key r = k)) = [] := by
        rw [List.filter_eq_nil_iff]
        intro a ha hpa
        exact h (List.any_eq_true.2 ⟨a, ha, hpa⟩)
      rw [hnil]
      simp

/-! ### Claim C10 (implicit: dedup before sort, keep-first in input order) -/

set_option maxHeartbeats 2000000 in
/-- C10: the engine deduplicates before sorting with pandas' keep-first
default, so among rows sharing a `(date, coin)` key the survivor is the
first occurrence in the original input order, with `date`, `price`,
`volume` and `market_cap` carried into the output unchanged; in the
concrete duplicated input, the surviving `(1, "a")` row is the one with
price 7 (the first occurrence), not 9. -/
theorem C10_keep_first :
    (∀ (df : List RawRow) (k : Int × String),
      ((process_data df).filter (fun fr => decide (fkey fr = k))).map baseOf =
        (df.filter (fun r => decide (key r = k))).take 1) ∧
    ((process_data dfDup).filter
      (fun fr => decide (fkey fr = ((1 : Int), "a")))).map (fun r => r.price) = [7] := by
  constructor
  · intro df k
    rw [process_data_filter_fkey, sortedDedup_filter_key]
  · norm_num [process_data, mapIdxFrom, mkFeatureRow, featureOfGroup, sortedDedup,
      dropDuplicates, dedupAux, key, fkey, List.insertionSort, List.orderedInsert,
      byDate, groupPrices, rankIn, returnsOf, returnsAux, maOf, volOf, cumretOf,
      cumprodSkipNa, window, qmean, sampleVarEF, EF.div, EF.add, EF.sub, EF.mul,
      EF.neg, EF.isNan, EF.sumL, dfDup]

/-! ### Claim C7 (global output order) -/

/-- C7: for every input, the output's `date` column is non-decreasing
across the whole table, and the output rows' carried columns are exactly
the sorted deduplicated table in its global sort order — the output is
not re-grouped by asset, it stays interleaved by date. -/
theorem C7_output_order :
    ∀ df : List RawRow,
      List.Sorted (· ≤ ·) ((process_data df).map (fun r => r.date)) ∧
      (process_data df).map baseOf = sortedDedup df :=
  fun df => ⟨process_data_dates_sorted df, process_data_base df⟩

/-! ### Claim C8 (per-asset independence) -/

/-- C8: deleting all rows of asset `b` from the input changes nothing in
asset `c`'s output rows (carried and derived columns alike), for any
`c ≠ b`. -/
theorem C8_per_asset_independence :
    ∀ (df : List RawRow) (b c : String), c ≠ b →
      outputGroup (df.filter (fun r => !decide (r.coin = b))) c = outputGroup df c := by
  intro df b c hne
  exact outputGroup_filter_coin (fun x => !decide (x = b)) df c (by simp [hne])

/-- Witness for C8 at a concrete input: dropping coin "b" from the
duplicated two-asset input leaves coin "a"'s output rows unchanged. -/
theorem C8_per_asset_independence_witness :
    outputGroup (dfDup.filter (fun r => !decide (r.coin = "b"))) "a" =
      outputGroup dfDup "a" :=
  C8_per_asset_independence dfDup "b" "a" (by simp)

/-! ### Claim C9 (fetch failures in the orchestration loop) -/

/-- C9: if every configured coin's fetch fails, `run_pipeline` returns the
distinct no-data outcome `none` without error; if at least one fetch
succeeds, the run continues with the remaining coins and produces a
table — one failed fetch never aborts the whole run. -/
theorem C9_fetch_failures :
    ∀ (coins : List String) (fetches : String → Option (List RawRow)),
      ((∀ c ∈ coins, fetches c = none) → run_pipeline coins fetches = none) ∧
      ((∃ c ∈ coins, fetches c ≠ none) → ∃ t, run_pipeline coins fetches = some t) :=
  fun coins fetches =>
    ⟨run_pipeline_none coins fetches, run_pipeline_some coins fetches⟩

/-- Witness for C9 at concrete inputs: with two coins and every fetch
failing the pipeline returns `none`; with one of the two succeeding it
returns a table. -/
theorem C9_fetch_failures_witness :
    run_pipeline ["bitcoin", "ethereum"] (fun _ => none) = none ∧
    ∃ t, run_pipeline ["bitcoin", "ethereum"]
      (fun c => if c = "bitcoin" then some dfOne else none) = some t :=
  ⟨(C9_fetch_failures ["bitcoin", "ethereum"] (fun _ => none)).1 (fun _ _ => rfl),
   (C9_fetch_failures ["bitcoin", "ethereum"]
      (fun c => if c = "bitcoin" then some dfOne else none)).2
    ⟨"bitcoin", by simp, by simp⟩⟩

end Crypto
